import Mathlib

/-!
Shallow embedding of `src/pointfiletool.js` (the point-file generation engine).

Strings are modelled as Lean `String`s and most character-level work happens on
`List Char`.  JavaScript regular-expression behaviour is translated into
explicit deterministic scanners; wherever the original regex could backtrack,
the backtracking outcome is computed directly (each such place is commented).
JavaScript whitespace classes are modelled by their ASCII subset
(space, tab, newline, carriage return, vertical tab, form feed); the exotic
Unicode members never influence the properties proved here.
-/

/-- ASCII subset of the JavaScript whitespace class used by `trim`, `\s`
and `parseInt`. -/
def isJsWs (c : Char) : Bool :=
  c = ' ' || c = '\t' || c = '\n' || c = '\r' || c = '\x0B' || c = '\x0C'

/-- ASCII uppercasing, modelling `String.prototype.toUpperCase` on the
characters that matter to the tag synthesizer (non-ASCII letters are replaced
by an underscore downstream either way). -/
def upperAscii (c : Char) : Char :=
  if 'a' ≤ c && c ≤ 'z' then Char.ofNat (c.toNat - 32) else c

/-- The regex digit class `\\d`, i.e. `[0-9]`. -/
def isDigitC (c : Char) : Bool :=
  '0' ≤ c && c ≤ '9'

/-- Characters kept verbatim by the tag synthesizer: the class `[A-Z0-9]`. -/
def isTagChar (c : Char) : Bool :=
  ('A' ≤ c && c ≤ 'Z') || isDigitC c

/-- Model of `String.prototype.trim` on a character list (ASCII whitespace model). -/
def jsTrimList (cs : List Char) : List Char :=
  ((cs.dropWhile isJsWs).reverse.dropWhile isJsWs).reverse

/-- Model of `String.prototype.trim`. -/
def jsTrim (s : String) : String :=
  String.mk (jsTrimList s.toList)

/-- Model of `split(/\r?\n/)`: line separators are `\n` or `\r\n`; a lone `\r` stays
inside its line. -/
def splitLinesAux : List Char → List Char → List (List Char)
  | [], acc => [acc.reverse]
  | '\r' :: '\n' :: rest, acc => acc.reverse :: splitLinesAux rest []
  | '\n' :: rest, acc => acc.reverse :: splitLinesAux rest []
  | c :: rest, acc => splitLinesAux rest (c :: acc)

/-- Recognize `bits` (case-insensitively) followed by at least one digit,
returning the digit run: the match step of `line.replace(/bits(\d+)/gi, ...)`. -/
def bitsDigits : List Char → Option (List Char)
  | b :: i :: t :: s :: rest =>
    if (b = 'b' || b = 'B') && (i = 'i' || i = 'I') &&
       (t = 't' || t = 'T') && (s = 's' || s = 'S') then
      let ds := rest.takeWhile isDigitC
      if ds = [] then none else some ds
    else none
  | _ => none

/-- Fuel-driven scanner for `line.replace` with the bits-digits regex and replacement `Bits $1`: scans
left to right, rewriting each occurrence and resuming after it. -/
def typoFixGo : Nat → List Char → List Char
  | 0, cs => cs
  | Nat.succ fuel, cs =>
    match bitsDigits cs with
    | some ds => 'B' :: 'i' :: 't' :: 's' :: ' ' :: (ds ++ typoFixGo fuel (cs.drop (4 + ds.length)))
    | none =>
      match cs with
      | [] => []
      | c :: rest => c :: typoFixGo fuel rest

/-- Model of `line.replace` with the bits-digits regex and replacement `Bits $1`. -/
def typoFixList (cs : List Char) : List Char :=
  typoFixGo cs.length cs

/-- Model of `split(/\s+/)` as a state machine.  The boolean tracks whether the scanner
is currently inside a whitespace run (so that the run yields one single split
point); JavaScript yields an empty leading/trailing piece when the string
starts/ends with whitespace, which the state machine reproduces. -/
def splitWsSM : Bool → List Char → List Char → List (List Char)
  | _, [], acc => [acc.reverse]
  | inWs, c :: rest, acc =>
    if isJsWs c then
      if inWs then splitWsSM true rest acc
      else acc.reverse :: splitWsSM true rest []
    else splitWsSM false rest (c :: acc)

/-- Model of `line.split(/\s+/)`. -/
def jsSplitWs (s : String) : List String :=
  (splitWsSM false s.toList []).map String.mk

/-- One-or-more whitespace then a digit: the `\s+\d` tail of the routing
test `/Bits?\s+\d/`.  The quantifier needs no backtracking because a
whitespace character is never a digit. -/
def wsPlusDigit (cs : List Char) : Bool :=
  match cs with
  | [] => false
  | c :: _ =>
    isJsWs c &&
      (match cs.dropWhile isJsWs with
       | d :: _ => isDigitC d
       | [] => false)

/-- Does `/Bits?\s+\d/` (case-sensitive!) match at the head of the list?
When an `s` follows `Bit` the engine first consumes it; declining the `s`
can never help because `s` is neither whitespace nor a digit. -/
def bitPatAt : List Char → Bool
  | 'B' :: 'i' :: 't' :: rest =>
    (match rest with
     | 's' :: r2 => wsPlusDigit r2
     | _ => wsPlusDigit rest)
  | _ => false

/-- Model of `/Bits?\s+\d/.test(restText)`: search every start position. -/
def bitTestList : List Char → Bool
  | [] => false
  | c :: rest => bitPatAt (c :: rest) || bitTestList rest

/-- The lookahead `(?=\s*Bits?\s+\d+)` used by the segment splitter
(case-sensitive).  As above, consuming an available `s` is forced. -/
def lookaheadBits (cs : List Char) : Bool :=
  match cs.dropWhile isJsWs with
  | 'B' :: 'i' :: 't' :: rest =>
    (match rest with
     | 's' :: r2 => wsPlusDigit r2
     | _ => wsPlusDigit rest)
  | _ => false

/-- Model of `restText.split(/;|,(?=\s*Bits?\s+\d+)/)`: split on every `;`, and on a
`,` whose lookahead sees a Bit/Bits keyword-and-number. -/
def splitSegsAux : List Char → List Char → List (List Char)
  | [], acc => [acc.reverse]
  | ';' :: rest, acc => acc.reverse :: splitSegsAux rest []
  | ',' :: rest, acc =>
    if lookaheadBits rest then acc.reverse :: splitSegsAux rest []
    else splitSegsAux rest (',' :: acc)
  | c :: rest, acc => splitSegsAux rest (c :: acc)

/-- The pipeline `.split(...).map(s => s.trim()).filter(Boolean)` of the bit-field branch. -/
def segsOf (restText : String) : List String :=
  ((splitSegsAux restText.toList []).map (fun cs => String.mk (jsTrimList cs))).filter
    (fun s => s ≠ "")

/-- The description capture `([^;]+)` preceded by `:\s*`.  The `\s*` is
greedy; when the remainder after the whitespace run is empty or starts with
`;`, the engine backtracks one whitespace character so that `[^;]+` can still
match (whitespace is not `;`). -/
def descOf (t : List Char) : Option (List Char) :=
  let w := (t.takeWhile isJsWs).length
  let rest := t.drop w
  match rest with
  | c :: _ =>
    if c = ';' then
      if w = 0 then none else some ((t.drop (w - 1)).takeWhile (fun d => d ≠ ';'))
    else some (rest.takeWhile (fun d => d ≠ ';'))
  | [] =>
    if w = 0 then none else some ((t.drop (w - 1)).takeWhile (fun d => d ≠ ';'))

/-- Attempt `/Bits?\s*(\d+)(?:-(\d+))?:\s*([^;]+)/i` at the head of the list,
returning (start digits, optional end digits, description capture).
All quantifier choices are forced: declining an available `s` puts a
non-whitespace, non-digit `s` in front of `\s*\d`, shrinking the greedy
`\d+` puts a digit where `-` or `:` is required, and declining an available
`-(\d+)` group puts `-` where `:` is required. -/
def segMatchAt : List Char → Option (List Char × Option (List Char) × List Char)
  | b :: i :: t :: rest =>
    if (b = 'b' || b = 'B') && (i = 'i' || i = 'I') && (t = 't' || t = 'T') then
      let r1 := match rest with
                | s :: r2 => if s = 's' || s = 'S' then r2 else rest
                | [] => rest
      let r2 := r1.dropWhile isJsWs
      let ds := r2.takeWhile isDigitC
      if ds = [] then none
      else
        match r2.drop ds.length with
        | '-' :: r4 =>
          let es := r4.takeWhile isDigitC
          if es = [] then none
          else
            (match r4.drop es.length with
             | ':' :: r5 => (descOf r5).map (fun d => (ds, some es, d))
             | _ => none)
        | ':' :: r5 => (descOf r5).map (fun d => (ds, none, d))
        | _ => none
    else none
  | _ => none

/-- Model of `segment.match(/Bits?\s*(\d+)(?:-(\d+))?:\s*([^;]+)/i)`: first matching
start position, scanning left to right. -/
def segMatchList : List Char → Option (List Char × Option (List Char) × List Char)
  | [] => none
  | c :: rest =>
    match segMatchAt (c :: rest) with
    | some r => some r
    | none => segMatchList rest

/-- The lookahead `(?=\s+\d+:|$)` of the value-mapping regex (no `m` flag, so
`$` is end of input).  `\s+` and `\d+` are forced as in `wsPlusDigit`. -/
def lookaheadMap (cs : List Char) : Bool :=
  match cs with
  | [] => true
  | c :: _ =>
    isJsWs c &&
      (let r := cs.dropWhile isJsWs
       let ds := r.takeWhile isDigitC
       ds ≠ [] &&
         (match r.drop ds.length with
          | ':' :: _ => true
          | _ => false))

/-- Largest `p` with `1 ≤ p ≤ bound` whose suffix `r.drop p` satisfies the
lookahead; the regex engine reaches candidate end positions in exactly this
descending order (shrinking the greedy `[^:]+` first, then the greedy `\s*`,
which lets `[^:]+` absorb whitespace). -/
def findLargestP : Nat → List Char → Option Nat
  | 0, _ => none
  | Nat.succ p, r => if lookaheadMap (r.drop (p + 1)) then some (p + 1) else findLargestP p r

/-- Attempt `/(\d+):\s*([^:]+)(?=\s+\d+:|$)/` at the head of the list.
Returns (value digits, raw label capture, remainder after the consumed
match).  The label capture is `r1.take p` minus the `\s*` prefix, where `p`
is the chosen end position and the `\s*` keeps `min(p-1, wsRun)`
characters. -/
def matchMapAt (cs : List Char) : Option (List Char × List Char × List Char) :=
  let ds := cs.takeWhile isDigitC
  if ds = [] then none
  else
    match cs.drop ds.length with
    | ':' :: r1 =>
      let wsN := (r1.takeWhile isJsWs).length
      let run := (r1.drop wsN).takeWhile (fun c => c ≠ ':')
      match findLargestP (wsN + run.length) r1 with
      | some p => some (ds, (r1.take p).drop (min (p - 1) wsN), r1.drop p)
      | none => none
    | _ => none

/-- The `while ((m = mapRegex.exec(restText)) !== null)` loop: repeatedly find
the next match (scanning start positions left to right) and resume after the
consumed part.  Labels are trimmed at push time, as in the source.  Fuel is
the remaining length; every step consumes at least one character. -/
def findMapsGo : Nat → List Char → List (String × String)
  | 0, _ => []
  | Nat.succ fuel, cs =>
    match matchMapAt cs with
    | some (v, lab, rest) => (String.mk v, String.mk (jsTrimList lab)) :: findMapsGo fuel rest
    | none =>
      match cs with
      | [] => []
      | _ :: rest => findMapsGo fuel rest

/-- All value-label pairs found by the value-mapping regex, in order. -/
def findMaps (cs : List Char) : List (String × String) :=
  findMapsGo cs.length cs

/-- The prefix of the list strictly before the first position where `\d+:`
matches (a digit run directly followed by `:`); the whole list when there is
no such position.  This is `restText.split(/\d+:/)[0]`. -/
def splitNumColonPrefix : List Char → List Char
  | [] => []
  | c :: rest =>
    if (let ds := (c :: rest).takeWhile isDigitC
        ds ≠ [] &&
          (match (c :: rest).drop ds.length with
           | ':' :: _ => true
           | _ => false)) then []
    else c :: splitNumColonPrefix rest

/-- Collapse every maximal run of non-`[A-Z0-9]` characters into a single
underscore: `replace(/[^A-Z0-9]+/g, '_')`.  The boolean records whether the
scanner is inside such a run. -/
def collapse : Bool → List Char → List Char
  | _, [] => []
  | b, c :: cs =>
    if isTagChar c then c :: collapse false cs
    else if b then collapse true cs
    else '_' :: collapse true cs

/-- Tag synthesis: `label.toUpperCase().replace(/[^A-Z0-9]+/g, '_')`. -/
def synthTag (s : String) : String :=
  String.mk (collapse false (s.toList.map upperAscii))

/-- The sole domain entity of the engine. -/
structure PointEntry where
  offset : String
  type : String
  id : String
  tag : String
  label : String
  group : String
  bits : String
  bnd : String
  evt : String
deriving DecidableEq

/-- The record pushed for the bit-field segment at 0-based index `i`, given
the captures of the segment regex. -/
def segRecord (offset ty grp : String) (i : Nat)
    (m : List Char × Option (List Char) × List Char) : PointEntry :=
  let bitsRange := match m.2.1 with
    | some e => String.mk m.1 ++ "-" ++ String.mk e
    | none => String.mk m.1
  { offset := offset
    type := ty
    id := offset
    tag := synthTag (String.mk m.2.2) ++ "_" ++ toString (i + 1)
    label := String.mk (jsTrimList m.2.2)
    group := grp
    bits := bitsRange
    bnd := ""
    evt := "" }

/-- The loop `segments.forEach((segment, i) => ...)` of the bit-field branch: each
segment that matches the segment regex pushes one record; non-matching
segments are skipped but still consume their index. -/
def bitEntriesGo (offset ty grp : String) : Nat → List String → List PointEntry
  | _, [] => []
  | i, s :: ss =>
    match segMatchList s.toList with
    | some m => segRecord offset ty grp i m :: bitEntriesGo offset ty grp (i + 1) ss
    | none => bitEntriesGo offset ty grp (i + 1) ss

/-- The bit-field branch of a detail line. -/
def bitEntries (offset ty grp restText : String) : List PointEntry :=
  bitEntriesGo offset ty grp 0 (segsOf restText)

/-- One `"<label>"==<value>,0` clause. -/
def evtClause (p : String × String) : String :=
  "\"" ++ p.2 ++ "\"==" ++ p.1 ++ ",0"

/-- The value-mapping branch of a detail line: exactly one record. -/
def valueEntry (offset ty grp restText : String) : PointEntry :=
  let mappings := findMaps restText.toList
  let paramName :=
    if mappings = [] then jsTrim restText
    else String.mk (jsTrimList (splitNumColonPrefix restText.toList))
  { offset := offset
    type := ty
    id := offset
    tag := synthTag paramName
    label := paramName
    group := grp
    bits := ""
    bnd := ""
    evt := String.intercalate ":" (mappings.map evtClause) }

/-- Whitespace tokens of a detail line after the typo rewrite. -/
def tokensOf (line : String) : List String :=
  jsSplitWs (String.mk (typoFixList line.toList))

/-- The `offsetToken` of the destructuring `const [offsetToken, typeToken, ...rest]`. -/
def offsetOf (line : String) : String :=
  (tokensOf line).headD ""

/-- The type token: `Integer` maps to `DI`, others pass through; a missing second token is
`undefined`, which interpolates as the string "undefined". -/
def typeOf (line : String) : String :=
  match (tokensOf line).drop 1 with
  | t :: _ => if t = "Integer" then "DI" else t
  | [] => "undefined"

/-- Model of `rest.join(' ')`. -/
def restTextOf (line : String) : String :=
  String.intercalate " " ((tokensOf line).drop 2)

/-- Process one detail line: route on `/Bits?\s+\d/.test(restText)`. -/
def processDetailLine (grp line : String) : List PointEntry :=
  if bitTestList (restTextOf line).toList then
    bitEntries (offsetOf line) (typeOf line) grp (restTextOf line)
  else
    [valueEntry (offsetOf line) (typeOf line) grp (restTextOf line)]

/-- The loop `detailLines.forEach(...)` with `entries.push(...)` is concatenation in
line order. -/
def processDetailLines (grp : String) : List String → List PointEntry
  | [] => []
  | l :: ls => processDetailLine grp l ++ processDetailLines grp ls

/-- The trimmed, non-empty lines of the raw input. -/
def linesOf (raw : String) : List String :=
  ((splitLinesAux (jsTrimList raw.toList) []).map (fun cs => String.mk (jsTrimList cs))).filter
    (fun l => l ≠ "")

/-- Model of `parseRawDetails`: fewer than two surviving lines yield no records; the
first line is the group name, the rest are detail lines. -/
def parseRawDetails (raw : String) : List PointEntry :=
  let lines := linesOf raw
  if lines.length < 2 then []
  else processDetailLines (lines.headD "") (lines.drop 1)

/-- Render one output line, as in `generatePointFile`'s template literal;
the ternaries test string truthiness, i.e. non-emptiness. -/
def serializeEntry (e : PointEntry) : String :=
  ":SAFRAN_X:PNT: " ++ e.type ++ ":" ++ e.id ++ ":" ++ e.tag ++ ":\"" ++ e.label ++
    (if e.bits = "" then "" else " [Bits " ++ e.bits ++ "]") ++
    "\":grp \"" ++ e.group ++ "\"" ++
    (if e.bnd = "" then "" else ":bnd " ++ e.bnd) ++
    (if e.evt = "" then "" else ":evt " ++ e.evt) ++ ":"

/-- Model of `lines.join('\n')`. -/
def generatePointFile (entries : List PointEntry) : String :=
  String.intercalate "\n" (entries.map serializeEntry)

/-- JavaScript values reachable in the enrichment merger: the JSON data model
plus `undefined` (produced by missing-property access, never by the parser).
Numeric literals keep their source token; the JSON grammar makes integer
tokens canonical, and no property proved here depends on float formatting. -/
inductive JVal where
  | undef : JVal
  | null : JVal
  | bool : Bool → JVal
  | num : String → JVal
  | str : String → JVal
  | arr : List JVal → JVal
  | obj : List (String × JVal) → JVal

/-- JSON whitespace accepted by `JSON.parse`. -/
def jsonWs (c : Char) : Bool :=
  c = ' ' || c = '\t' || c = '\n' || c = '\r'

/-- Hex digit value. -/
def hexVal (c : Char) : Option Nat :=
  if isDigitC c then some (c.toNat - 48)
  else if 'a' ≤ c && c ≤ 'f' then some (c.toNat - 87)
  else if 'A' ≤ c && c ≤ 'F' then some (c.toNat - 55)
  else none

/-- Body of a JSON string literal (opening quote already consumed), with the
standard escapes.  A `\uXXXX` escape becomes the scalar with that code when
valid (lone surrogates, which Lean characters cannot carry, fall back to the
null scalar; no property proved here exercises them). -/
def parseJStrAux : List Char → List Char → Option (String × List Char)
  | [], _ => none
  | '"' :: rest, acc => some (String.mk acc.reverse, rest)
  | '\\' :: 'u' :: a :: b :: c :: d :: rest, acc =>
    (match hexVal a, hexVal b, hexVal c, hexVal d with
     | some va, some vb, some vc, some vd =>
       parseJStrAux rest (Char.ofNat (((va * 16 + vb) * 16 + vc) * 16 + vd) :: acc)
     | _, _, _, _ => none)
  | '\\' :: e :: rest, acc =>
    (match e with
     | '"' => parseJStrAux rest ('"' :: acc)
     | '\\' => parseJStrAux rest ('\\' :: acc)
     | '/' => parseJStrAux rest ('/' :: acc)
     | 'b' => parseJStrAux rest ('\x08' :: acc)
     | 'f' => parseJStrAux rest ('\x0C' :: acc)
     | 'n' => parseJStrAux rest ('\n' :: acc)
     | 'r' => parseJStrAux rest ('\r' :: acc)
     | 't' => parseJStrAux rest ('\t' :: acc)
     | _ => none)
  | c :: rest, acc => if c.toNat < 32 then none else parseJStrAux rest (c :: acc)

/-- A JSON number token: `-?(0|[1-9][0-9]*)(.[0-9]+)?([eE][+-]?[0-9]+)?`.
The fraction and exponent are consumed only when well formed; a malformed
tail is left in place and makes the enclosing parse fail, exactly as
`JSON.parse` rejects it. -/
def parseJNum (cs : List Char) : Option (String × List Char) :=
  let (sgn, cs1) := match cs with
    | '-' :: r => (['-'], r)
    | _ => (([] : List Char), cs)
  match cs1 with
  | c :: _ =>
    if isDigitC c then
      let ip := if c = '0' then [c] else cs1.takeWhile isDigitC
      let r1 := cs1.drop ip.length
      let (fp, r2) := match r1 with
        | '.' :: t =>
          let fd := t.takeWhile isDigitC
          if fd = [] then (([] : List Char), r1) else ('.' :: fd, t.drop fd.length)
        | _ => (([] : List Char), r1)
      let (ep, r3) := match r2 with
        | e :: t =>
          if e = 'e' || e = 'E' then
            let (es, t2) := match t with
              | '+' :: u => (['+'], u)
              | '-' :: u => (['-'], u)
              | _ => (([] : List Char), t)
            let ed := t2.takeWhile isDigitC
            if ed = [] then (([] : List Char), r2) else (e :: (es ++ ed), t2.drop ed.length)
          else (([] : List Char), r2)
        | [] => (([] : List Char), r2)
      some (String.mk (sgn ++ ip ++ fp ++ ep), r3)
    else none
  | [] => none

/-- Work items of the JSON parser: a value, the items of an array after `[`,
or the members of an object after the opening brace. -/
inductive JTask where
  | val : List Char → JTask
  | items : List Char → List JVal → JTask
  | members : List Char → List (String × JVal) → JTask

/-- Fuel-driven recursive-descent `JSON.parse` body.  Fuel is structural so
every closed evaluation reduces in the kernel; `jsonParse` supplies more fuel
than any input can consume (at most two calls per input character). -/
def parseJ : Nat → JTask → Option (JVal × List Char)
  | 0, _ => none
  | Nat.succ fuel, JTask.val cs0 =>
    let cs := cs0.dropWhile jsonWs
    match cs with
    | '\x7b' :: rest =>
      (match rest.dropWhile jsonWs with
       | '\x7d' :: r2 => some (JVal.obj [], r2)
       | r1 => parseJ fuel (JTask.members r1 []))
    | '[' :: rest =>
      (match rest.dropWhile jsonWs with
       | ']' :: r2 => some (JVal.arr [], r2)
       | r1 => parseJ fuel (JTask.items r1 []))
    | '"' :: rest => (parseJStrAux rest []).map (fun p => (JVal.str p.1, p.2))
    | 't' :: 'r' :: 'u' :: 'e' :: rest => some (JVal.bool true, rest)
    | 'f' :: 'a' :: 'l' :: 's' :: 'e' :: rest => some (JVal.bool false, rest)
    | 'n' :: 'u' :: 'l' :: 'l' :: rest => some (JVal.null, rest)
    | _ => (parseJNum cs).map (fun p => (JVal.num p.1, p.2))
  | Nat.succ fuel, JTask.items cs acc =>
    (match parseJ fuel (JTask.val cs) with
     | none => none
     | some (v, r1) =>
       match r1.dropWhile jsonWs with
       | ',' :: r2 => parseJ fuel (JTask.items r2 (acc ++ [v]))
       | ']' :: r2 => some (JVal.arr (acc ++ [v]), r2)
       | _ => none)
  | Nat.succ fuel, JTask.members cs acc =>
    (match cs.dropWhile jsonWs with
     | '"' :: rest =>
       (match parseJStrAux rest [] with
        | none => none
        | some (key, r1) =>
          match r1.dropWhile jsonWs with
          | ':' :: r2 =>
            (match parseJ fuel (JTask.val r2) with
             | none => none
             | some (v, r3) =>
               match r3.dropWhile jsonWs with
               | ',' :: r4 => parseJ fuel (JTask.members r4 (acc ++ [(key, v)]))
               | '\x7d' :: r4 => some (JVal.obj (acc ++ [(key, v)]), r4)
               | _ => none)
          | _ => none)
     | _ => none)

/-- Model of `JSON.parse`: a single value with only whitespace around it. -/
def jsonParse (s : String) : Option JVal :=
  match parseJ (2 * s.length + 2) (JTask.val s.toList) with
  | some (v, rest) => if rest.dropWhile jsonWs = [] then some v else none
  | none => none

/-- Scan for the first closing brace that sits at the end of a line (the
tail of the extraction regex — a close brace anchored at a line end: the anchor with the `m` flag matches at end
of input or before `\n`). -/
def findCloseBrace : List Char → List Char → Option (List Char)
  | [], _ => none
  | '\x7d' :: rest, acc =>
    (match rest with
     | [] => some (('\x7d' :: acc).reverse)
     | '\n' :: _ => some (('\x7d' :: acc).reverse)
     | _ => findCloseBrace rest ('\x7d' :: acc))
  | c :: rest, acc => findCloseBrace rest (c :: acc)

/-- The extraction regex of safeParseJson (open brace, lazy any-character body,
close brace at a line end, multiline flag): the lazy body makes the match run from the
first `\x7b` to the first qualifying `\x7d` after it; if the first `\x7b` has
no qualifying close brace, no later start position has one either. -/
def extractJsonCandidate (s : String) : Option String :=
  match s.toList.dropWhile (fun c => c ≠ '\x7b') with
  | [] => none
  | _ :: rest => (findCloseBrace rest ['\x7b']).map String.mk

/-- Model of `safeParseJson`: extract the brace-delimited candidate and decode it;
`none` models the caught exception path returning `null`. -/
def safeParseJson (s : String) : Option JVal :=
  (extractJsonCandidate s).bind jsonParse

mutual

/-- JavaScript string coercion of the values above, as used by `parseInt(x)`
and template interpolation: arrays join their elements with commas (null and
undefined elements become empty), objects print as `[object Object]`. -/
def jsToStr : JVal → String
  | JVal.undef => "undefined"
  | JVal.null => "null"
  | JVal.bool true => "true"
  | JVal.bool false => "false"
  | JVal.num raw => raw
  | JVal.str s => s
  | JVal.arr xs => String.intercalate "," (jsToStrList xs)
  | JVal.obj _ => "[object Object]"

/-- Element coercion for `Array.prototype.join`. -/
def jsToStrList : List JVal → List String
  | [] => []
  | JVal.null :: xs => "" :: jsToStrList xs
  | JVal.undef :: xs => "" :: jsToStrList xs
  | x :: xs => jsToStr x :: jsToStrList xs

end

/-- JavaScript truthiness of the values above.  A numeric token is falsy when
its value is zero, i.e. when no nonzero digit occurs in its mantissa. -/
def jsTruthy : JVal → Bool
  | JVal.undef => false
  | JVal.null => false
  | JVal.bool b => b
  | JVal.num raw =>
    ((raw.toList.takeWhile (fun c => c ≠ 'e' && c ≠ 'E')).filter isDigitC).any
      (fun c => c ≠ '0')
  | JVal.str s => s ≠ ""
  | JVal.arr _ => true
  | JVal.obj _ => true

/-- Last binding of a key in an object literal (`JSON.parse` keeps the last
duplicate). -/
def lookupLast (key : String) : List (String × JVal) → JVal
  | [] => JVal.undef
  | kv :: rest =>
    match lookupLast key rest with
    | JVal.undef => if kv.1 = key then kv.2 else JVal.undef
    | v => v

/-- Property access that cannot throw: objects look the key up, every other
non-nullish value yields `undefined`.  Used only where the source reads a
property of a value already known not to be nullish. -/
def jsField (j : JVal) (key : String) : JVal :=
  match j with
  | JVal.obj kvs => lookupLast key kvs
  | _ => JVal.undef

/-- Property access as JavaScript evaluates it: reading a property of `null`
or `undefined` throws a TypeError. -/
def jsFieldE (j : JVal) (key : String) : Except String JVal :=
  match j with
  | JVal.null => Except.error "TypeError: cannot read properties of null"
  | JVal.undef => Except.error "TypeError: cannot read properties of undefined"
  | JVal.obj kvs => Except.ok (lookupLast key kvs)
  | _ => Except.ok JVal.undef

/-- Model of `parseInt(s)` with no radix argument: skip whitespace, read an optional
sign, detect a `0x`/`0X` prefix, then read leading digits of the radix;
no digits means NaN, modelled as `none`. -/
def jsParseIntList (cs0 : List Char) : Option Int :=
  let cs1 := cs0.dropWhile isJsWs
  let (neg, cs2) := match cs1 with
    | '-' :: r => (true, r)
    | '+' :: r => (false, r)
    | _ => (false, cs1)
  let (hex, cs3) := match cs2 with
    | '0' :: 'x' :: r => (true, r)
    | '0' :: 'X' :: r => (true, r)
    | _ => (false, cs2)
  let ds := if hex then cs3.takeWhile (fun c => (hexVal c).isSome) else cs3.takeWhile isDigitC
  if ds = [] then none
  else
    let base : Nat := if hex then 16 else 10
    let v : Nat := ds.foldl (fun a c => a * base + ((hexVal c).getD 0)) 0
    some (if neg then -(v : Int) else (v : Int))

/-- Model of `parseInt` on a string. -/
def jsParseInt (s : String) : Option Int :=
  jsParseIntList s.toList

/-- The comparison `parseInt(a) === parseInt(b)`: NaN compares unequal to everything,
including itself. -/
def jsNumEq (a b : Option Int) : Bool :=
  match a, b with
  | some x, some y => x = y
  | _, _ => false

/-- The predicate of `aiJson.parameters.find(p => parseInt(p.offset) ===
parseInt(entry.offset))` for one candidate, given the record's parsed offset.
A candidate whose `offset` read throws is reported as `false` here; the
throwing read itself is sequenced in `findMatchE`. -/
def entryMatchesKey (p : JVal) (key : Option Int) : Bool :=
  match jsFieldE p "offset" with
  | Except.ok off => jsNumEq (jsParseInt (jsToStr off)) key
  | Except.error _ => false

/-- Model of `parameters.find(...)`: scan in order; a nullish element aborts with the
TypeError its property read would raise. -/
def findMatchE (key : Option Int) : List JVal → Except String (Option JVal)
  | [] => Except.ok none
  | p :: ps =>
    match jsFieldE p "offset" with
    | Except.error msg => Except.error msg
    | Except.ok off =>
      if jsNumEq (jsParseInt (jsToStr off)) key then Except.ok (some p)
      else findMatchE key ps

/-- The clause builder mapped over the values array (one quoted label, two
equals signs, the value, then a comma and zero), with element reads sequenced
for the TypeError on nullish elements. -/
def evtClausesE : List JVal → Except String (List String)
  | [] => Except.ok []
  | v :: vs =>
    match jsFieldE v "label" with
    | Except.error msg => Except.error msg
    | Except.ok lab =>
      match jsFieldE v "value" with
      | Except.error msg => Except.error msg
      | Except.ok vv =>
        match evtClausesE vs with
        | Except.error msg => Except.error msg
        | Except.ok rest =>
          Except.ok (("\"" ++ jsToStr lab ++ "\"==" ++ jsToStr vv ++ ",0") :: rest)

/-- The ternary `aiParam.values ? aiParam.values.map(...).join(..) : entry.evt`: a falsy
`values` keeps the record's `evt`; a truthy non-array has no `.map` and
throws. -/
def buildEvtE (vj : JVal) (fallback : String) : Except String String :=
  if jsTruthy vj then
    match vj with
    | JVal.arr vs =>
      (match evtClausesE vs with
       | Except.error msg => Except.error msg
       | Except.ok cl => Except.ok (String.intercalate ":" cl))
    | _ => Except.error "TypeError: aiParam.values.map is not a function"
  else Except.ok fallback

/-- The `entries.map(entry => ...)` callback of `enhanceWithAI`, given the
raw `parameters` value.  A truthy non-array `parameters` has no `.find` and
throws; an unmatched entry is returned as is; a matched entry gets `label`
and `bits` replaced when the enrichment fields are truthy, `evt` rebuilt when
`values` is truthy, and `bnd` untouched. -/
def mergeOne (ps : JVal) (entry : PointEntry) : Except String PointEntry :=
  match ps with
  | JVal.arr params =>
    (match findMatchE (jsParseInt entry.offset) params with
     | Except.error msg => Except.error msg
     | Except.ok none => Except.ok entry
     | Except.ok (some aiParam) =>
       match jsFieldE aiParam "values" with
       | Except.error msg => Except.error msg
       | Except.ok vj =>
         match buildEvtE vj entry.evt with
         | Except.error msg => Except.error msg
         | Except.ok evt =>
           match jsFieldE aiParam "name" with
           | Except.error msg => Except.error msg
           | Except.ok nm =>
             match jsFieldE aiParam "bits" with
             | Except.error msg => Except.error msg
             | Except.ok bt =>
               Except.ok
                 { entry with
                   label := if jsTruthy nm then jsToStr nm else entry.label
                   bits := if jsTruthy bt then jsToStr bt else entry.bits
                   evt := evt })
  | _ => Except.error "TypeError: aiJson.parameters.find is not a function"

/-- Model of `entries.map(...)` with a callback that can throw. -/
def mapMergeE (ps : JVal) : List PointEntry → Except String (List PointEntry)
  | [] => Except.ok []
  | e :: es =>
    match mergeOne ps e with
    | Except.error msg => Except.error msg
    | Except.ok r =>
      match mapMergeE ps es with
      | Except.error msg => Except.error msg
      | Except.ok rs => Except.ok (r :: rs)

/-- Model of `enhanceWithAI`: decode failure or a falsy decoded value or a falsy
`parameters` property short-circuits to the unchanged input (the
`if (!aiJson || !aiJson.parameters) return entries;` guard); otherwise every
entry runs through the merge callback. -/
def enhanceWithAI (entries : List PointEntry) (aiData : String) : Except String (List PointEntry) :=
  match safeParseJson aiData with
  | none => Except.ok entries
  | some aiJson =>
    if jsTruthy aiJson && jsTruthy (jsField aiJson "parameters") then
      mapMergeE (jsField aiJson "parameters") entries
    else Except.ok entries

/-- What `enhanceWithAI` does to one entry, independent of its position. -/
def mergeStep (s : String) (e : PointEntry) : Except String PointEntry :=
  match safeParseJson s with
  | none => Except.ok e
  | some aiJson =>
    if jsTruthy aiJson && jsTruthy (jsField aiJson "parameters") then
      mergeOne (jsField aiJson "parameters") e
    else Except.ok e

/-- No parameter of the decoded enrichment payload matches the record by
integer-compared offset (vacuously true when the payload does not decode to
a parameters array). -/
def NoAiMatch (s : String) (e : PointEntry) : Prop :=
  ∀ j ps, safeParseJson s = some j → jsField j "parameters" = JVal.arr ps →
    ∀ p ∈ ps, entryMatchesKey p (jsParseInt e.offset) = false

/-! ### Tag synthesis: codomain and idempotence (C7) -/

/-- Output well-formedness for `collapse`: every character is in `[A-Z0-9]`
or is an isolated underscore (no underscore directly after a pending run). -/
def collapsedOk : Bool → List Char → Bool
  | _, [] => true
  | b, c :: cs =>
    if isTagChar c then collapsedOk false cs
    else ((c == '_') && !b && collapsedOk true cs)

theorem upperAscii_fixes (c : Char) (h : c = '_' ∨ isTagChar c = true) :
    upperAscii c = c := by
  rcases h with h | h
  · subst h; decide
  · unfold isTagChar isDigitC at h
    simp only [Bool.or_eq_true, Bool.and_eq_true, decide_eq_true_eq,
      Char.le_def, UInt32.le_def, BitVec.le_def] at h
    unfold upperAscii
    split
    · next hcond =>
        exfalso
        simp only [Bool.and_eq_true, decide_eq_true_eq,
          Char.le_def, UInt32.le_def, BitVec.le_def] at hcond
        simp at h hcond
        omega
    · rfl

theorem collapse_mem : ∀ (l : List Char) (b : Bool) (c : Char),
    c ∈ collapse b l → c = '_' ∨ isTagChar c = true := by
  intro l
  induction l with
  | nil => intro b c h; simp [collapse] at h
  | cons d cs ih =>
    intro b c h
    unfold collapse at h
    by_cases hd : isTagChar d = true
    · simp only [hd, if_pos] at h
      rcases List.mem_cons.mp h with h | h
      · subst h; exact Or.inr hd
      · exact ih false c h
    · simp only [hd] at h
      cases b with
      | true => simp only [if_neg, Bool.false_eq_true, if_false] at h; exact ih true c h
      | false =>
        simp only [Bool.false_eq_true, if_false] at h
        rcases List.mem_cons.mp h with h | h
        · exact Or.inl h
        · exact ih true c h

theorem map_upper_fixes : ∀ l : List Char, (∀ c ∈ l, upperAscii c = c) →
    l.map upperAscii = l := by
  intro l
  induction l with
  | nil => intro _; rfl
  | cons d cs ih =>
    intro h
    simp only [List.map_cons]
    rw [h d (List.mem_cons_self d cs), ih (fun c hc => h c (List.mem_cons_of_mem d hc))]

theorem collapse_ok : ∀ (l : List Char) (b : Bool),
    collapsedOk b (collapse b l) = true := by
  intro l
  induction l with
  | nil => intro b; rfl
  | cons d cs ih =>
    intro b
    unfold collapse
    by_cases hd : isTagChar d = true
    · simp only [hd, if_pos]
      unfold collapsedOk
      simp only [hd, if_pos]
      exact ih false
    · simp only [hd]
      cases b with
      | true => simpa using ih true
      | false =>
        simp only [Bool.false_eq_true, if_false]
        unfold collapsedOk
        simp only [isTagChar, show (('A' ≤ '_' && '_' ≤ 'Z') || isDigitC '_') = false by decide]
        simpa using ih true

theorem collapse_fixed : ∀ (l : List Char) (b : Bool),
    collapsedOk b l = true → collapse b l = l := by
  intro l
  induction l with
  | nil => intro b _; rfl
  | cons d cs ih =>
    intro b h
    unfold collapsedOk at h
    unfold collapse
    by_cases hd : isTagChar d = true
    · simp only [hd, if_pos] at h ⊢
      rw [ih false h]
    · simp only [hd, Bool.false_eq_true, if_false] at h ⊢
      simp only [Bool.and_eq_true, Bool.not_eq_true', beq_iff_eq] at h
      rcases h with ⟨⟨hc, hb⟩, hok⟩
      subst hb
      simp only [Bool.false_eq_true, if_false]
      rw [ih true hok, hc]

/-- C7: tag synthesis lands in the character class `[A-Z0-9_]` and is
idempotent: applying the synthesizer to its own output returns that output
unchanged.  (Determinism is immediate: `synthTag` is a function.) -/
theorem tag_synthesis_idempotent (s : String) :
    (∀ c ∈ (synthTag s).toList, c = '_' ∨ isTagChar c = true) ∧
      synthTag (synthTag s) = synthTag s := by
  constructor
  · intro c hc
    exact collapse_mem _ false c hc
  · show String.mk (collapse false ((synthTag s).toList.map upperAscii)) = synthTag s
    have htl : (synthTag s).toList = collapse false (s.toList.map upperAscii) := rfl
    rw [htl]
    rw [map_upper_fixes _ (fun c hc => upperAscii_fixes c (collapse_mem _ false c hc))]
    rw [collapse_fixed _ false (collapse_ok _ false)]
    rfl

/-- Witness for C7 at a concrete label. -/
theorem tag_synthesis_idempotent_witness :
    (('A' : Char) = '_' ∨ isTagChar 'A' = true) ∧
      synthTag (synthTag "mode (raw)") = synthTag "mode (raw)" :=
  ⟨(tag_synthesis_idempotent "mode (raw)").1 'A' (by decide),
   (tag_synthesis_idempotent "mode (raw)").2⟩

/-! ### Serializer wire format (C1) -/

/-- Wire-format line transcribed from the specification text
`:SAFRAN_X:PNT: [type]:[id]:[tag]:"[label][ [Bits bits]]":grp "[group]"[:bnd bnd][:evt evt]:`
with each optional piece present exactly when its field is non-empty. -/
def specFormatLine (e : PointEntry) : String :=
  ":SAFRAN_X:PNT: " ++
    (e.type ++ ":" ++ e.id ++ ":" ++ e.tag ++ ":" ++
      "\"" ++ (e.label ++ (if e.bits ≠ "" then " [Bits " ++ e.bits ++ "]" else "")) ++ "\"" ++
      ":grp " ++ "\"" ++ e.group ++ "\"" ++
      (if e.bnd ≠ "" then ":bnd " ++ e.bnd else "") ++
      (if e.evt ≠ "" then ":evt " ++ e.evt else "")) ++
    ":"

/-- C1: every serialized line is exactly the specified wire format — the
literal `:SAFRAN_X:PNT: ` prefix and `:` suffix, with the ` [Bits ...]`
label suffix iff `bits` is non-empty, the `:bnd` clause iff `bnd` is
non-empty and the `:evt` clause iff `evt` is non-empty — and the output
joins the per-record lines with a newline in record order. -/
theorem serializer_wire_format (e : PointEntry) (es : List PointEntry) :
    serializeEntry e = specFormatLine e ∧
      (∃ mid, serializeEntry e = ":SAFRAN_X:PNT: " ++ mid ++ ":") ∧
      generatePointFile es = String.intercalate "\n" (es.map serializeEntry) := by
  refine ⟨?_, ?_, rfl⟩
  · by_cases hb : e.bits = "" <;> by_cases hn : e.bnd = "" <;> by_cases he : e.evt = "" <;>
      simp [serializeEntry, specFormatLine, hb, hn, he, String.append_assoc]
  · refine ⟨e.type ++ ":" ++ e.id ++ ":" ++ e.tag ++ ":\"" ++ e.label ++
      (if e.bits = "" then "" else " [Bits " ++ e.bits ++ "]") ++
      "\":grp \"" ++ e.group ++ "\"" ++
      (if e.bnd = "" then "" else ":bnd " ++ e.bnd) ++
      (if e.evt = "" then "" else ":evt " ++ e.evt), ?_⟩
    simp [serializeEntry, String.append_assoc]

/-! ### Enrichment merger: fail-open and frame properties (C4, C5, C6) -/

/-- C4: when the payload contains no decodable JSON object, or decodes to a
value without a `parameters` property, the merger returns its input record
list unchanged and raises no error (the fail-open guard). -/
theorem enrichment_fail_open (entries : List PointEntry) (s : String)
    (h : safeParseJson s = none ∨
      ∃ j, safeParseJson s = some j ∧ jsField j "parameters" = JVal.undef) :
    enhanceWithAI entries s = Except.ok entries := by
  rcases h with h | ⟨j, hj, hp⟩
  · simp [enhanceWithAI, h]
  · simp [enhanceWithAI, hj, hp, jsTruthy]

/-- Witness for C4 on a payload whose embedded JSON object decodes but lacks
`parameters`. -/
theorem enrichment_fail_open_witness :
    enhanceWithAI [(⟨"1", "DI", "1", "T", "L", "G", "", "", ""⟩ : PointEntry)]
        "note \x7b\"group\": \"g\"\x7d" =
      Except.ok [(⟨"1", "DI", "1", "T", "L", "G", "", "", ""⟩ : PointEntry)] :=
  enrichment_fail_open _ _ (Or.inr ⟨JVal.obj [("group", JVal.str "g")], rfl, rfl⟩)

theorem mapMergeE_ok (ps : JVal) : ∀ (es res : List PointEntry),
    mapMergeE ps es = Except.ok res →
    res.length = es.length ∧
      ∀ i (h1 : i < es.length) (h2 : i < res.length),
        mergeOne ps (es.get ⟨i, h1⟩) = Except.ok (res.get ⟨i, h2⟩) := by
  intro es
  induction es with
  | nil =>
    intro res h
    simp only [mapMergeE] at h
    cases h
    exact ⟨rfl, fun i h1 _ => absurd h1 (Nat.not_lt_zero i)⟩
  | cons e es ih =>
    intro res h
    simp only [mapMergeE] at h
    cases hm : mergeOne ps e with
    | error msg => rw [hm] at h; exact Except.noConfusion h
    | ok r =>
      rw [hm] at h
      cases hms : mapMergeE ps es with
      | error msg => rw [hms] at h; exact Except.noConfusion h
      | ok rs =>
        rw [hms] at h
        have hres : r :: rs = res := Except.ok.inj h
        subst hres
        obtain ⟨hlen, hpt⟩ := ih rs hms
        refine ⟨by simpa using hlen, ?_⟩
        intro i h1 h2
        cases i with
        | zero => simpa using hm
        | succ k =>
          have h1k : k < es.length := Nat.lt_of_succ_lt_succ h1
          have h2k : k < rs.length := Nat.lt_of_succ_lt_succ h2
          simpa using hpt k h1k h2k

theorem findMatchE_ok_of_nomatch (key : Option Int) : ∀ (ps : List JVal),
    (∀ p ∈ ps, entryMatchesKey p key = false) →
    ∀ r, findMatchE key ps = Except.ok r → r = none := by
  intro ps
  induction ps with
  | nil => intro _ r h; simpa [findMatchE] using h.symm
  | cons p ps ih =>
    intro hall r h
    simp only [findMatchE] at h
    cases ho : jsFieldE p "offset" with
    | error msg => rw [ho] at h; exact Except.noConfusion h
    | ok off =>
      simp only [ho] at h
      have hmatch : jsNumEq (jsParseInt (jsToStr off)) key = false := by
        have := hall p (List.mem_cons_self p ps)
        simpa [entryMatchesKey, ho] using this
      rw [hmatch] at h
      simp only [Bool.false_eq_true, if_false] at h
      exact ih (fun q hq => hall q (List.mem_cons_of_mem p hq)) r h

theorem mergeOne_nomatch (ps : List JVal) (e : PointEntry)
    (hall : ∀ p ∈ ps, entryMatchesKey p (jsParseInt e.offset) = false)
    (r : PointEntry) (hr : mergeOne (JVal.arr ps) e = Except.ok r) : r = e := by
  simp only [mergeOne] at hr
  cases hf : findMatchE (jsParseInt e.offset) ps with
  | error msg => rw [hf] at hr; exact Except.noConfusion hr
  | ok fo =>
    rw [hf] at hr
    have hfo : fo = none := findMatchE_ok_of_nomatch _ ps hall fo hf
    subst hfo
    exact (Except.ok.inj hr).symm

theorem mergeStep_nomatch (s : String) (e r : PointEntry)
    (hr : mergeStep s e = Except.ok r) (h : NoAiMatch s e) : r = e := by
  unfold mergeStep at hr
  cases hs : safeParseJson s with
  | none => rw [hs] at hr; exact (Except.ok.inj hr).symm
  | some j =>
    simp only [hs] at hr
    by_cases hc : (jsTruthy j && jsTruthy (jsField j "parameters")) = true
    · simp only [hc, if_true] at hr
      cases hval : jsField j "parameters" with
      | arr ps =>
        rw [hval] at hr
        exact mergeOne_nomatch ps e (h j ps hs hval) r hr
      | undef => rw [hval] at hr; exact Except.noConfusion hr
      | null => rw [hval] at hr; exact Except.noConfusion hr
      | bool b => rw [hval] at hr; exact Except.noConfusion hr
      | num n => rw [hval] at hr; exact Except.noConfusion hr
      | str st => rw [hval] at hr; exact Except.noConfusion hr
      | obj kvs => rw [hval] at hr; exact Except.noConfusion hr
    · rw [Bool.not_eq_true] at hc
      simp only [hc, Bool.false_eq_true, if_false] at hr
      exact (Except.ok.inj hr).symm

theorem jsNumEq_nan (a : Option Int) : jsNumEq a none = false := by
  cases a <;> rfl

theorem entryMatchesKey_nan (p : JVal) : entryMatchesKey p none = false := by
  unfold entryMatchesKey
  cases jsFieldE p "offset" with
  | error msg => rfl
  | ok off => exact jsNumEq_nan _

/-- C5: on any run of the merger that returns (does not throw), the output
has the same length as the input and the i-th output record is obtained from
the i-th input record alone (order preserved); a record matched by no
enrichment entry is returned identical to its pre-merge form; and a record
whose offset does not parse as an integer is never matched, since NaN
compares unequal to everything. -/
theorem enrichment_merge_only_matched :
    (∀ s entries res, enhanceWithAI entries s = Except.ok res →
      res.length = entries.length ∧
        ∀ i (h1 : i < entries.length) (h2 : i < res.length),
          mergeStep s (entries.get ⟨i, h1⟩) = Except.ok (res.get ⟨i, h2⟩)) ∧
    (∀ s e r, mergeStep s e = Except.ok r → NoAiMatch s e → r = e) ∧
    (∀ s e, jsParseInt e.offset = none → NoAiMatch s e) := by
  refine ⟨?_, fun s e r hr h => mergeStep_nomatch s e r hr h, ?_⟩
  · intro s entries res h
    unfold enhanceWithAI at h
    cases hs : safeParseJson s with
    | none =>
      rw [hs] at h
      have hres : entries = res := Except.ok.inj h
      subst hres
      refine ⟨rfl, fun i h1 h2 => ?_⟩
      simp [mergeStep, hs]
    | some j =>
      simp only [hs] at h
      by_cases hc : (jsTruthy j && jsTruthy (jsField j "parameters")) = true
      · simp only [hc, if_true] at h
        obtain ⟨hlen, hpt⟩ := mapMergeE_ok _ entries res h
        refine ⟨hlen, fun i h1 h2 => ?_⟩
        have := hpt i h1 h2
        simpa [mergeStep, hs, hc] using this
      · rw [Bool.not_eq_true] at hc
        simp only [hc, Bool.false_eq_true, if_false] at h
        have hres : entries = res := Except.ok.inj h
        subst hres
        refine ⟨rfl, fun i h1 h2 => ?_⟩
        simp [mergeStep, hs, hc]
  · intro s e hnan j ps hj hp p hm
    rw [hnan]
    exact entryMatchesKey_nan p

/-- Witness for C5: an unchanged pass through a payload whose only entry has
a different offset, plus the non-numeric-offset conjunct. -/
theorem enrichment_merge_only_matched_witness :
    ((⟨"5", "DI", "5", "T", "L", "G", "", "", ""⟩ : PointEntry) = ⟨"5", "DI", "5", "T", "L", "G", "", "", ""⟩) ∧
      NoAiMatch "x" (⟨"abc", "DI", "abc", "T", "L", "G", "", "", ""⟩ : PointEntry) := by
  constructor
  · refine enrichment_merge_only_matched.2.1 "\x7b\"parameters\": [\x7b\"offset\": \"7\"\x7d]\x7d" _ _ rfl ?_
    intro j ps hj hp p hm
    have hj2 : JVal.obj [("parameters", JVal.arr [JVal.obj [("offset", JVal.str "7")]])] = j :=
      Option.some.inj hj
    subst hj2
    have hps : [JVal.obj [("offset", JVal.str "7")]] = ps := JVal.arr.inj hp
    subst hps
    have hpp : p = JVal.obj [("offset", JVal.str "7")] := List.mem_singleton.mp hm
    subst hpp
    rfl
  · exact enrichment_merge_only_matched.2.2 "x" _ rfl

/-- Counterexample to C6 as stated: the enrichment entry carries a `name`
property (the empty string), the record is matched by offset, yet the merged
record keeps its old label `"L"` instead of taking the present `name` —
`aiParam.name || entry.label` falls back on every falsy `name`. -/
theorem enrichment_empty_name_cex :
    mergeOne (JVal.arr [JVal.obj [("offset", JVal.str "1"), ("name", JVal.str "")]])
        (⟨"1", "DI", "1", "TAG", "L", "G", "", "", ""⟩ : PointEntry) =
      Except.ok (⟨"1", "DI", "1", "TAG", "L", "G", "", "", ""⟩ : PointEntry) ∧
    jsFieldE (JVal.obj [("offset", JVal.str "1"), ("name", JVal.str "")]) "name" =
      Except.ok (JVal.str "") ∧
    (⟨"1", "DI", "1", "TAG", "L", "G", "", "", ""⟩ : PointEntry).label = "L" ∧
    ("L" : String) ≠ "" := by
  refine ⟨rfl, rfl, rfl, by decide⟩

/-- C6 (amended): a record matched by an enrichment entry changes at most
`label`, `bits` and `evt`: `label` becomes the entry's `name` when that is
present and truthy (in particular non-empty), else stays; `bits` likewise;
`evt` is rebuilt from the `values` array whenever `values` is truthy (any
array, even empty) and stays otherwise; `offset`, `type`, `id`, `tag`,
`group` and `bnd` never change. -/
theorem enrichment_match_updates (ps : List JVal) (e : PointEntry) (p nm bt vj : JVal)
    (r : PointEntry)
    (hfind : findMatchE (jsParseInt e.offset) ps = Except.ok (some p))
    (hr : mergeOne (JVal.arr ps) e = Except.ok r)
    (hvj : jsFieldE p "values" = Except.ok vj)
    (hnm : jsFieldE p "name" = Except.ok nm)
    (hbt : jsFieldE p "bits" = Except.ok bt) :
    r.offset = e.offset ∧ r.type = e.type ∧ r.id = e.id ∧ r.tag = e.tag ∧
      r.group = e.group ∧ r.bnd = e.bnd ∧
      r.label = (if jsTruthy nm then jsToStr nm else e.label) ∧
      r.bits = (if jsTruthy bt then jsToStr bt else e.bits) ∧
      (jsTruthy vj = false → r.evt = e.evt) ∧
      (∀ vs cls, vj = JVal.arr vs → evtClausesE vs = Except.ok cls →
        r.evt = String.intercalate ":" cls) := by
  simp only [mergeOne, hfind, hvj] at hr
  cases hev : buildEvtE vj e.evt with
  | error msg => rw [hev] at hr; exact Except.noConfusion hr
  | ok evt =>
    simp only [hev, hnm, hbt] at hr
    have hrw : _ = r := Except.ok.inj hr
    subst hrw
    refine ⟨rfl, rfl, rfl, rfl, rfl, rfl, rfl, rfl, ?_, ?_⟩
    · intro hfalse
      unfold buildEvtE at hev
      rw [hfalse] at hev
      simp only [Bool.false_eq_true, if_false] at hev
      exact (Except.ok.inj hev).symm
    · intro vs cls hvs hcls
      subst hvs
      unfold buildEvtE at hev
      simp only [show jsTruthy (JVal.arr vs) = true from rfl, if_true, hcls] at hev
      exact (Except.ok.inj hev).symm

/-- Witness for C6 (amended) on a payload entry that supplies a name, bits
and one value mapping. -/
theorem enrichment_match_updates_witness :
    (⟨"1", "DI", "1", "TAG", "N", "G", "3", "", "\"On\"==1,0"⟩ : PointEntry).offset =
        (⟨"1", "DI", "1", "TAG", "L", "G", "", "", ""⟩ : PointEntry).offset ∧
      (⟨"1", "DI", "1", "TAG", "N", "G", "3", "", "\"On\"==1,0"⟩ : PointEntry).type =
        (⟨"1", "DI", "1", "TAG", "L", "G", "", "", ""⟩ : PointEntry).type ∧
      (⟨"1", "DI", "1", "TAG", "N", "G", "3", "", "\"On\"==1,0"⟩ : PointEntry).id =
        (⟨"1", "DI", "1", "TAG", "L", "G", "", "", ""⟩ : PointEntry).id ∧
      (⟨"1", "DI", "1", "TAG", "N", "G", "3", "", "\"On\"==1,0"⟩ : PointEntry).tag =
        (⟨"1", "DI", "1", "TAG", "L", "G", "", "", ""⟩ : PointEntry).tag ∧
      (⟨"1", "DI", "1", "TAG", "N", "G", "3", "", "\"On\"==1,0"⟩ : PointEntry).group =
        (⟨"1", "DI", "1", "TAG", "L", "G", "", "", ""⟩ : PointEntry).group ∧
      (⟨"1", "DI", "1", "TAG", "N", "G", "3", "", "\"On\"==1,0"⟩ : PointEntry).bnd =
        (⟨"1", "DI", "1", "TAG", "L", "G", "", "", ""⟩ : PointEntry).bnd ∧
      (⟨"1", "DI", "1", "TAG", "N", "G", "3", "", "\"On\"==1,0"⟩ : PointEntry).label =
        (if jsTruthy (JVal.str "N") then jsToStr (JVal.str "N")
         else (⟨"1", "DI", "1", "TAG", "L", "G", "", "", ""⟩ : PointEntry).label) ∧
      (⟨"1", "DI", "1", "TAG", "N", "G", "3", "", "\"On\"==1,0"⟩ : PointEntry).bits =
        (if jsTruthy (JVal.str "3") then jsToStr (JVal.str "3")
         else (⟨"1", "DI", "1", "TAG", "L", "G", "", "", ""⟩ : PointEntry).bits) ∧
      (jsTruthy (JVal.arr [JVal.obj [("label", JVal.str "On"), ("value", JVal.num "1")]]) = false →
        (⟨"1", "DI", "1", "TAG", "N", "G", "3", "", "\"On\"==1,0"⟩ : PointEntry).evt =
          (⟨"1", "DI", "1", "TAG", "L", "G", "", "", ""⟩ : PointEntry).evt) ∧
      (∀ vs cls,
        JVal.arr [JVal.obj [("label", JVal.str "On"), ("value", JVal.num "1")]] = JVal.arr vs →
        evtClausesE vs = Except.ok cls →
        (⟨"1", "DI", "1", "TAG", "N", "G", "3", "", "\"On\"==1,0"⟩ : PointEntry).evt =
          String.intercalate ":" cls) :=
  enrichment_match_updates
    [JVal.obj [("offset", JVal.str "1"), ("name", JVal.str "N"), ("bits", JVal.str "3"),
      ("values", JVal.arr [JVal.obj [("label", JVal.str "On"), ("value", JVal.num "1")]])]]
    (⟨"1", "DI", "1", "TAG", "L", "G", "", "", ""⟩ : PointEntry)
    (JVal.obj [("offset", JVal.str "1"), ("name", JVal.str "N"), ("bits", JVal.str "3"),
      ("values", JVal.arr [JVal.obj [("label", JVal.str "On"), ("value", JVal.num "1")]])])
    (JVal.str "N") (JVal.str "3")
    (JVal.arr [JVal.obj [("label", JVal.str "On"), ("value", JVal.num "1")]])
    (⟨"1", "DI", "1", "TAG", "N", "G", "3", "", "\"On\"==1,0"⟩ : PointEntry)
    rfl rfl rfl rfl rfl

/-! ### Bit-field and value-mapping record emission (C2, C3) -/

theorem bitEntriesGo_all (off ty grp : String) :
    ∀ (ss : List String) (i : Nat),
      (∀ s ∈ ss, (segMatchList s.toList).isSome = true) →
      (bitEntriesGo off ty grp i ss).length = ss.length ∧
        ∀ k (hk : k < ss.length) (hk2 : k < (bitEntriesGo off ty grp i ss).length) m,
          segMatchList ((ss.get ⟨k, hk⟩).toList) = some m →
          (bitEntriesGo off ty grp i ss).get ⟨k, hk2⟩ = segRecord off ty grp (i + k) m := by
  intro ss
  induction ss with
  | nil =>
    intro i _
    exact ⟨rfl, fun k hk => absurd hk (Nat.not_lt_zero k)⟩
  | cons s ss ih =>
    intro i h
    obtain ⟨m0, hm0⟩ := Option.isSome_iff_exists.mp (h s (List.mem_cons_self s ss))
    have hrest : ∀ t ∈ ss, (segMatchList t.toList).isSome = true :=
      fun t ht => h t (List.mem_cons_of_mem s ht)
    obtain ⟨ihlen, ihpt⟩ := ih (i + 1) hrest
    have hm0d : segMatchList s.data = some m0 := hm0
    have hgo : bitEntriesGo off ty grp i (s :: ss) =
        segRecord off ty grp i m0 :: bitEntriesGo off ty grp (i + 1) ss := by
      simp [bitEntriesGo, hm0d]
    refine ⟨by simp [hgo, ihlen], ?_⟩
    intro k hk hk2 m hm
    cases k with
    | zero =>
      have hmm : m0 = m := by
        have : segMatchList s.toList = some m := hm
        rw [hm0] at this
        exact Option.some.inj this
      subst hmm
      simp [hgo, Nat.add_zero]
    | succ k2 =>
      have hk2s : k2 < ss.length := Nat.lt_of_succ_lt_succ hk
      have hk2g : k2 < (bitEntriesGo off ty grp (i + 1) ss).length := by
        rw [ihlen]; exact hk2s
      have := ihpt k2 hk2s hk2g m (by simpa using hm)
      have harith : i + 1 + k2 = i + (k2 + 1) := by omega
      rw [harith] at this
      simpa [hgo] using this

/-- C2: a detail line handed to the bit-field extractor in which every split,
trimmed, non-empty segment matches the segment pattern emits exactly one
record per segment, in segment order; the k-th record (1-based) carries the
tag synthesized from its description suffixed `_k`, `bits` rendered as
`start-end` when an end was captured and `start` otherwise, the trimmed
description as label, and an empty `evt`. -/
theorem bitfield_line_emits_segments (off ty grp rest : String)
    (h : ∀ s ∈ segsOf rest, (segMatchList s.toList).isSome = true) :
    (bitEntries off ty grp rest).length = (segsOf rest).length ∧
      ∀ k (hk : k < (segsOf rest).length) (hk2 : k < (bitEntries off ty grp rest).length)
        st en dsc,
        segMatchList (((segsOf rest).get ⟨k, hk⟩).toList) = some (st, en, dsc) →
        (bitEntries off ty grp rest).get ⟨k, hk2⟩ =
          { offset := off
            type := ty
            id := off
            tag := synthTag (String.mk dsc) ++ "_" ++ toString (k + 1)
            label := String.mk (jsTrimList dsc)
            group := grp
            bits := match en with
                    | some e => String.mk st ++ "-" ++ String.mk e
                    | none => String.mk st
            bnd := ""
            evt := "" } := by
  obtain ⟨hlen, hpt⟩ := bitEntriesGo_all off ty grp (segsOf rest) 0 h
  refine ⟨hlen, ?_⟩
  intro k hk hk2 st en dsc hm
  have hrec := hpt k hk hk2 (st, en, dsc) hm
  refine Eq.trans hrec ?_
  simp [segRecord, Nat.zero_add]

/-- Witness for C2 on the two-segment line of the specification's first
example scenario. -/
theorem bitfield_line_emits_segments_witness :
    (bitEntries "100" "DI" "Status Word" "Bits 0: Ready; Bits 1-2: Mode").length =
      (segsOf "Bits 0: Ready; Bits 1-2: Mode").length ∧
    (bitEntries "100" "DI" "Status Word" "Bits 0: Ready; Bits 1-2: Mode").get ⟨1, by decide⟩ =
      { offset := "100"
        type := "DI"
        id := "100"
        tag := synthTag (String.mk ['M', 'o', 'd', 'e']) ++ "_" ++ toString (1 + 1)
        label := String.mk (jsTrimList ['M', 'o', 'd', 'e'])
        group := "Status Word"
        bits := String.mk ['1'] ++ "-" ++ String.mk ['2']
        bnd := ""
        evt := "" } := by
  constructor
  · exact (bitfield_line_emits_segments "100" "DI" "Status Word" _ (by decide)).1
  · exact (bitfield_line_emits_segments "100" "DI" "Status Word" _ (by decide)).2 1
      (by decide) (by decide) ['1'] (some ['2']) ['M', 'o', 'd', 'e'] (by decide)

theorem processDetailLine_value (grp line : String)
    (h : bitTestList (restTextOf line).toList = false) :
    processDetailLine grp line =
      [valueEntry (offsetOf line) (typeOf line) grp (restTextOf line)] := by
  have hd : bitTestList (restTextOf line).data = false := h
  simp [processDetailLine, hd]

theorem processDetailLines_value_count (grp : String) : ∀ ls : List String,
    (∀ l ∈ ls, bitTestList (restTextOf l).toList = false) →
    (processDetailLines grp ls).length = ls.length ∧
      ∀ e ∈ processDetailLines grp ls, e.bits = "" := by
  intro ls
  induction ls with
  | nil => intro _; exact ⟨rfl, fun e he => absurd he (List.not_mem_nil e)⟩
  | cons l ls ih =>
    intro h
    obtain ⟨ihlen, ihmem⟩ := ih (fun t ht => h t (List.mem_cons_of_mem l ht))
    have hl := processDetailLine_value grp l (h l (List.mem_cons_self l ls))
    constructor
    · simp [processDetailLines, hl, ihlen]
    · intro e he
      simp only [processDetailLines, hl] at he
      rcases List.mem_append.mp he with he | he
      · have : e = valueEntry (offsetOf l) (typeOf l) grp (restTextOf l) := by simpa using he
        subst this
        rfl
      · exact ihmem e he

/-- C3: a detail line not routed to the bit-field extractor emits exactly one
record, with empty `bits` and with `evt` the `:`-join of one
`"label"==value,0` clause per extracted value mapping (empty when none); an
input whose detail lines all avoid the bit-field route therefore yields
exactly one record per detail line, each with empty `bits`. -/
theorem value_lines_one_record_each :
    (∀ grp line, bitTestList (restTextOf line).toList = false →
      processDetailLine grp line =
        [valueEntry (offsetOf line) (typeOf line) grp (restTextOf line)] ∧
      (valueEntry (offsetOf line) (typeOf line) grp (restTextOf line)).bits = "" ∧
      (valueEntry (offsetOf line) (typeOf line) grp (restTextOf line)).evt =
        String.intercalate ":" ((findMaps (restTextOf line).toList).map evtClause)) ∧
    (∀ raw, (∀ l ∈ (linesOf raw).drop 1, bitTestList (restTextOf l).toList = false) →
      (parseRawDetails raw).length = ((linesOf raw).drop 1).length ∧
      ∀ e ∈ parseRawDetails raw, e.bits = "") := by
  constructor
  · intro grp line h
    exact ⟨processDetailLine_value grp line h, rfl, rfl⟩
  · intro raw h
    unfold parseRawDetails
    by_cases hlt : (linesOf raw).length < 2
    · simp only [hlt, if_true]
      have hdrop : (linesOf raw).drop 1 = [] := by
        cases hl : linesOf raw with
        | nil => rfl
        | cons a t =>
          cases ht : t with
          | nil => rfl
          | cons b t2 => rw [hl, ht] at hlt; simp at hlt; omega
      rw [hdrop]
      exact ⟨rfl, fun e he => absurd he (List.not_mem_nil e)⟩
    · simp only [hlt, if_false]
      exact processDetailLines_value_count ((linesOf raw).headD "") ((linesOf raw).drop 1) h

/-- Witness for C3 on the specification's second example scenario. -/
theorem value_lines_one_record_each_witness :
    (parseRawDetails "Config\n200 Word Speed 0: Slow 1: Fast").length =
      ((linesOf "Config\n200 Word Speed 0: Slow 1: Fast").drop 1).length ∧
    ∀ e ∈ parseRawDetails "Config\n200 Word Speed 0: Slow 1: Fast", e.bits = "" :=
  value_lines_one_record_each.2 "Config\n200 Word Speed 0: Slow 1: Fast" (by decide)

/-! ### The segment keyword is required; only its `s` and spacing are optional (C8) -/

theorem takeWhile_all_true (p : Char → Bool) : ∀ l : List Char,
    (∀ c ∈ l, p c = true) → l.takeWhile p = l := by
  intro l
  induction l with
  | nil => intro _; rfl
  | cons c cs ih =>
    intro h
    rw [List.takeWhile_cons_of_pos (h c (List.mem_cons_self c cs))]
    rw [ih (fun d hd => h d (List.mem_cons_of_mem c hd))]

theorem takeWhile_append_exact (p : Char → Bool) : ∀ (l r : List Char),
    (∀ c ∈ l, p c = true) → (∀ c, r.head? = some c → p c = false) →
    (l ++ r).takeWhile p = l := by
  intro l r
  induction l with
  | nil =>
    intro _ hr
    cases r with
    | nil => rfl
    | cons c t =>
      simp only [List.nil_append]
      exact List.takeWhile_cons_of_neg (by simp [hr c rfl])
  | cons c cs ih =>
    intro hl hr
    simp only [List.cons_append]
    rw [List.takeWhile_cons_of_pos (hl c (List.mem_cons_self c cs))]
    rw [ih (fun d hd => hl d (List.mem_cons_of_mem c hd)) hr]

theorem dropWhile_append_exact (p : Char → Bool) : ∀ (l r : List Char),
    (∀ c ∈ l, p c = true) → (∀ c, r.head? = some c → p c = false) →
    (l ++ r).dropWhile p = r := by
  intro l r
  induction l with
  | nil =>
    intro _ hr
    cases r with
    | nil => rfl
    | cons c t =>
      simp only [List.nil_append]
      exact List.dropWhile_cons_of_neg (by simp [hr c rfl])
  | cons c cs ih =>
    intro hl hr
    simp only [List.cons_append]
    rw [List.dropWhile_cons_of_pos (hl c (List.mem_cons_self c cs))]
    exact ih (fun d hd => hl d (List.mem_cons_of_mem c hd)) hr

theorem digit_not_ws (c : Char) (h : isDigitC c = true) : isJsWs c = false := by
  by_contra hx
  rw [Bool.not_eq_false] at hx
  unfold isJsWs at hx
  simp only [Bool.or_eq_true, decide_eq_true_eq] at hx
  rcases hx with ((((e | e) | e) | e) | e) | e <;> subst e <;> simp [isDigitC] at h

theorem digit_not_sS (c : Char) (h : isDigitC c = true) : (c = 's' || c = 'S') = false := by
  by_contra hx
  rw [Bool.not_eq_false] at hx
  simp only [Bool.or_eq_true, decide_eq_true_eq] at hx
  rcases hx with e | e <;> subst e <;> simp [isDigitC] at h

theorem ws_not_sS (c : Char) (h : isJsWs c = true) : (c = 's' || c = 'S') = false := by
  unfold isJsWs at h
  simp only [Bool.or_eq_true, decide_eq_true_eq] at h
  rcases h with ((((e | e) | e) | e) | e) | e <;> subst e <;> decide

theorem descOf_clean (dsc : List Char) (hne : dsc ≠ [])
    (hsemi : ∀ c ∈ dsc, c ≠ ';')
    (hhead : ∀ c, dsc.head? = some c → isJsWs c = false) :
    descOf dsc = some dsc := by
  obtain ⟨c0, dsc2, rfl⟩ := List.exists_cons_of_ne_nil hne
  have hc0 : isJsWs c0 = false := hhead c0 rfl
  have htw : (c0 :: dsc2).takeWhile isJsWs = [] := List.takeWhile_cons_of_neg (by simp [hc0])
  unfold descOf
  rw [htw]
  simp only [List.length_nil, List.drop_zero]
  rw [if_neg (hsemi c0 (List.mem_cons_self c0 dsc2))]
  rw [takeWhile_all_true _ _ (fun c hc => by simpa using hsemi c hc)]

/-- The optional `-(\\d+)` group rendered back into characters, used to state
the segment-shape theorem. -/
def dashPart : Option (List Char) → List Char
  | some es => '-' :: es
  | none => []

theorem segMatchAt_shape (hasS : Bool) (ws ds dsc : List Char) (en : Option (List Char))
    (hds : ds ≠ []) (hdsd : ∀ c ∈ ds, isDigitC c = true)
    (hws : ∀ c ∈ ws, isJsWs c = true)
    (hdsc : dsc ≠ []) (hsemi : ∀ c ∈ dsc, c ≠ ';')
    (hhead : ∀ c, dsc.head? = some c → isJsWs c = false)
    (hen : ∀ es, en = some es → es ≠ [] ∧ ∀ c ∈ es, isDigitC c = true) :
    segMatchAt ('B' :: 'i' :: 't' ::
        ((if hasS then ['s'] else []) ++ (ws ++ (ds ++
          (dashPart en ++ (':' :: dsc)))))) =
      some (ds, en, dsc) := by
  obtain ⟨d0, ds2, rfl⟩ := List.exists_cons_of_ne_nil hds
  have hd0 : isDigitC d0 = true := hdsd d0 (List.mem_cons_self d0 ds2)
  have hdesc : descOf dsc = some dsc := descOf_clean dsc hdsc hsemi hhead
  cases en with
  | none =>
    have h1 : ((d0 :: ds2) ++ (':' :: dsc)).takeWhile isDigitC = d0 :: ds2 :=
      takeWhile_append_exact _ _ _ hdsd
        (fun c hc => by
          have hcc : c = ':' := by simpa using hc.symm
          subst hcc; decide)
    have h2 : ((d0 :: ds2) ++ (':' :: dsc)).drop (d0 :: ds2).length = ':' :: dsc :=
      List.drop_left _ _
    have h3 : (ws ++ ((d0 :: ds2) ++ (':' :: dsc))).dropWhile isJsWs =
        (d0 :: ds2) ++ (':' :: dsc) :=
      dropWhile_append_exact _ _ _ hws
        (fun c hc => by
          have hcc : c = d0 := by simpa using hc.symm
          subst hcc; exact digit_not_ws c hd0)
    simp only [List.cons_append, List.nil_append, List.length_cons] at h1 h2 h3
    cases hasS with
    | true =>
      simp [segMatchAt, dashPart, h1, h2, h3, hdesc]
    | false =>
      cases ws with
      | nil =>
        have hsS : (d0 = 's' || d0 = 'S') = false := digit_not_sS d0 hd0
        simp only [List.nil_append] at h3
        simp [segMatchAt, dashPart, hsS, h1, h2, h3, hdesc]
      | cons w0 ws2 =>
        have hw0 : isJsWs w0 = true := hws w0 (List.mem_cons_self w0 ws2)
        have hsS : (w0 = 's' || w0 = 'S') = false := ws_not_sS w0 hw0
        simp only [List.cons_append] at h3
        simp [segMatchAt, dashPart, hsS, h1, h2, h3, hdesc]
  | some es =>
    obtain ⟨hesne, hesd⟩ := hen es rfl
    have h1 : ((d0 :: ds2) ++ ('-' :: (es ++ (':' :: dsc)))).takeWhile isDigitC = d0 :: ds2 :=
      takeWhile_append_exact _ _ _ hdsd
        (fun c hc => by
          have hcc : c = '-' := by simpa using hc.symm
          subst hcc; decide)
    have h2 : ((d0 :: ds2) ++ ('-' :: (es ++ (':' :: dsc)))).drop (d0 :: ds2).length =
        '-' :: (es ++ (':' :: dsc)) := List.drop_left _ _
    have h3 : (ws ++ ((d0 :: ds2) ++ ('-' :: (es ++ (':' :: dsc))))).dropWhile isJsWs =
        (d0 :: ds2) ++ ('-' :: (es ++ (':' :: dsc))) :=
      dropWhile_append_exact _ _ _ hws
        (fun c hc => by
          have hcc : c = d0 := by simpa using hc.symm
          subst hcc; exact digit_not_ws c hd0)
    have h4 : (es ++ (':' :: dsc)).takeWhile isDigitC = es :=
      takeWhile_append_exact _ _ _ hesd
        (fun c hc => by
          have hcc : c = ':' := by simpa using hc.symm
          subst hcc; decide)
    have h5 : (es ++ (':' :: dsc)).drop es.length = ':' :: dsc := List.drop_left _ _
    simp only [List.cons_append, List.nil_append, List.length_cons] at h1 h2 h3 h4 h5
    cases hasS with
    | true =>
      simp [segMatchAt, dashPart, h1, h2, h3, h4, h5, hesne, hdesc]
    | false =>
      cases ws with
      | nil =>
        have hsS : (d0 = 's' || d0 = 'S') = false := digit_not_sS d0 hd0
        simp only [List.nil_append] at h3
        simp [segMatchAt, dashPart, hsS, h1, h2, h3, h4, h5, hesne, hdesc]
      | cons w0 ws2 =>
        have hw0 : isJsWs w0 = true := hws w0 (List.mem_cons_self w0 ws2)
        have hsS : (w0 = 's' || w0 = 'S') = false := ws_not_sS w0 hw0
        simp only [List.cons_append] at h3
        simp [segMatchAt, dashPart, hsS, h1, h2, h3, h4, h5, hesne, hdesc]

/-- Counterexample to C8 as stated: the trimmed segment `2: B` has the form
`<start>: <description>` with no leading Bit/Bits keyword, yet it fails the
segment pattern, so the two-segment bit-field text emits one record, not
two — in the pattern `/Bits?\s*(\d+).../i` only the `s` is optional, the
`Bit` keyword is mandatory. -/
theorem bit_keyword_required_cex :
    segMatchList ("2: B".toList) = none ∧
    segsOf "Bits 1: A; 2: B" = ["Bits 1: A", "2: B"] ∧
    (bitEntries "100" "DI" "G" "Bits 1: A; 2: B").length = 1 ∧
    bitTestList ("Bits 1: A; 2: B".toList) = true :=
  ⟨rfl, rfl, rfl, rfl⟩

/-- C8 (amended): in the segment pattern only the `s` of the keyword and the
whitespace between keyword and start number are optional — every segment of
the shape `Bit[s][whitespace]<start>[-<end>]:<description>` (with a
non-empty description that contains no `;` and does not start with
whitespace) matches the segment regex with the expected captures and emits
exactly its record, whereas a keyword-less segment such as `2: B` is dropped
(see the counterexample). -/
theorem bit_keyword_optional_s (off ty grp : String) (i : Nat) (hasS : Bool)
    (ws ds dsc : List Char) (en : Option (List Char))
    (hds : ds ≠ []) (hdsd : ∀ c ∈ ds, isDigitC c = true)
    (hws : ∀ c ∈ ws, isJsWs c = true)
    (hdsc : dsc ≠ []) (hsemi : ∀ c ∈ dsc, c ≠ ';')
    (hhead : ∀ c, dsc.head? = some c → isJsWs c = false)
    (hen : ∀ es, en = some es → es ≠ [] ∧ ∀ c ∈ es, isDigitC c = true) :
    segMatchList ('B' :: 'i' :: 't' ::
        ((if hasS then ['s'] else []) ++ (ws ++ (ds ++
          (dashPart en ++ (':' :: dsc)))))) = some (ds, en, dsc) ∧
    bitEntriesGo off ty grp i
        [String.mk ('B' :: 'i' :: 't' ::
          ((if hasS then ['s'] else []) ++ (ws ++ (ds ++
            (dashPart en ++ (':' :: dsc))))))] =
      [segRecord off ty grp i (ds, en, dsc)] := by
  have hm := segMatchAt_shape hasS ws ds dsc en hds hdsd hws hdsc hsemi hhead hen
  have hlist : segMatchList ('B' :: 'i' :: 't' ::
      ((if hasS then ['s'] else []) ++ (ws ++ (ds ++
        (dashPart en ++ (':' :: dsc)))))) = some (ds, en, dsc) := by
    simp only [segMatchList, hm]
  exact ⟨hlist, by simp [bitEntriesGo, String.toList, hlist]⟩

/-- Witness for C8 (amended) on the segment `Bits 10-11: Mode`. -/
theorem bit_keyword_optional_s_witness :
    segMatchList ('B' :: 'i' :: 't' ::
        ((if true then ['s'] else []) ++ ([' '] ++ (['1', '0'] ++
          (dashPart (some ['1', '1']) ++ (':' :: ['M', 'o', 'd', 'e'])))))) = some (['1', '0'], some ['1', '1'], ['M', 'o', 'd', 'e']) ∧
    bitEntriesGo "100" "DI" "G" 0
        [String.mk ('B' :: 'i' :: 't' ::
          ((if true then ['s'] else []) ++ ([' '] ++ (['1', '0'] ++
            (dashPart (some ['1', '1']) ++ (':' :: ['M', 'o', 'd', 'e']))))))] =
      [segRecord "100" "DI" "G" 0 (['1', '0'], some ['1', '1'], ['M', 'o', 'd', 'e'])] :=
  bit_keyword_optional_s "100" "DI" "G" 0 true [' '] ['1', '0'] ['M', 'o', 'd', 'e']
    (some ['1', '1']) (by decide) (by decide) (by decide) (by decide) (by decide)
    (fun c hc => by
      have hcm : c = 'M' := by simpa using hc.symm
      subst hcm; decide)
    (fun es hes => by
      have hese : ['1', '1'] = es := Option.some.inj hes
      subst hese
      exact ⟨by decide, by decide⟩)

/-! ### Parameter-name cut point (C9) and bits/evt exclusivity (C10) -/

/-- Counterexample to C9 as stated: in `X 1: 2: y` the only extracted
mapping is `(2, y)` (the occurrence `1:` yields none because its lookahead
fails), so "everything strictly before the first number-colon occurrence
that yields a mapping" would be `X 1:` — but the code splits on the first
`\d+:` occurrence regardless, producing the label `X`. -/
theorem param_name_cut_cex :
    findMaps ("X 1: 2: y".toList) = [("2", "y")] ∧
    (valueEntry "1" "T" "G" "X 1: 2: y").label = "X" ∧
    ("X" : String) ≠ "X 1:" :=
  ⟨rfl, rfl, by decide⟩

/-- C9 (amended): when at least one mapping is found, the record's label is
everything in `restText` strictly before the first digit-run-followed-by-`:`
occurrence — whether or not that occurrence yields a mapping — trimmed; when
no mapping is found it is the entire trimmed `restText`. -/
theorem param_name_cut_rule (off ty grp rest : String) :
    (findMaps rest.toList ≠ [] →
      (valueEntry off ty grp rest).label =
        String.mk (jsTrimList (splitNumColonPrefix rest.toList))) ∧
    (findMaps rest.toList = [] →
      (valueEntry off ty grp rest).label = jsTrim rest) := by
  constructor
  · intro h
    have hd : findMaps rest.data ≠ [] := h
    simp [valueEntry, hd]
  · intro h
    have hd : findMaps rest.data = [] := h
    simp [valueEntry, hd]

/-- Witness for C9 (amended) covering both branches on concrete lines. -/
theorem param_name_cut_rule_witness :
    (valueEntry "1" "T" "G" "X 1: 2: y").label =
      String.mk (jsTrimList (splitNumColonPrefix ("X 1: 2: y".toList))) ∧
    (valueEntry "1" "T" "G" "Plain name").label = jsTrim "Plain name" :=
  ⟨(param_name_cut_rule "1" "T" "G" "X 1: 2: y").1 (by decide),
   (param_name_cut_rule "1" "T" "G" "Plain name").2 (by decide)⟩

/-- Counterexample to C10 as stated: a value-mapped record produced by the
parser (non-empty `evt`) that an enrichment entry then augments with `bits`
but no `values` ends up with both `bits` and `evt` non-empty after the
merge. -/
theorem bits_evt_exclusive_cex :
    parseRawDetails "G\n1 Word A 0: B" =
      [(⟨"1", "Word", "1", "A", "A", "G", "", "", "\"B\"==0,0"⟩ : PointEntry)] ∧
    enhanceWithAI [(⟨"1", "Word", "1", "A", "A", "G", "", "", "\"B\"==0,0"⟩ : PointEntry)]
        "\x7b\"parameters\": [\x7b\"offset\": 1, \"bits\": \"3\"\x7d]\x7d" =
      Except.ok [(⟨"1", "Word", "1", "A", "A", "G", "3", "", "\"B\"==0,0"⟩ : PointEntry)] ∧
    (⟨"1", "Word", "1", "A", "A", "G", "3", "", "\"B\"==0,0"⟩ : PointEntry).bits ≠ "" ∧
    (⟨"1", "Word", "1", "A", "A", "G", "3", "", "\"B\"==0,0"⟩ : PointEntry).evt ≠ "" := by
  refine ⟨by decide, rfl, by decide, by decide⟩

theorem bitEntriesGo_evt_empty (off ty grp : String) : ∀ (ss : List String) (i : Nat)
    (e : PointEntry), e ∈ bitEntriesGo off ty grp i ss → e.evt = "" := by
  intro ss
  induction ss with
  | nil => intro i e he; simp [bitEntriesGo] at he
  | cons s ss ih =>
    intro i e he
    unfold bitEntriesGo at he
    cases hm : segMatchList s.toList with
    | none =>
      rw [hm] at he
      exact ih (i + 1) e he
    | some m =>
      rw [hm] at he
      rcases List.mem_cons.mp he with he | he
      · subst he; rfl
      · exact ih (i + 1) e he

theorem processDetailLine_excl (grp line : String) (e : PointEntry)
    (he : e ∈ processDetailLine grp line) : e.bits = "" ∨ e.evt = "" := by
  unfold processDetailLine at he
  by_cases hb : bitTestList (restTextOf line).toList = true
  · rw [hb] at he
    simp only [if_true] at he
    exact Or.inr (bitEntriesGo_evt_empty _ _ _ _ 0 e he)
  · rw [Bool.not_eq_true] at hb
    rw [hb] at he
    simp only [Bool.false_eq_true, if_false] at he
    have : e = valueEntry (offsetOf line) (typeOf line) grp (restTextOf line) := by
      simpa using he
    subst this
    exact Or.inl rfl

/-- C10 (amended): after parsing — before any enrichment merge — every
record has `bits` and `evt` mutually exclusive: at least one of the two is
the empty string.  The enrichment merge can break this (see the
counterexample, where an entry adds `bits` to a value-mapped record without
supplying `values`). -/
theorem bits_evt_exclusive_after_parse (raw : String) (e : PointEntry)
    (he : e ∈ parseRawDetails raw) : e.bits = "" ∨ e.evt = "" := by
  unfold parseRawDetails at he
  by_cases hlt : (linesOf raw).length < 2
  · simp only [hlt, if_true] at he
    exact absurd he (List.not_mem_nil e)
  · simp only [hlt, if_false] at he
    revert he
    generalize (linesOf raw).drop 1 = ls
    generalize (linesOf raw).headD "" = grp
    intro he
    induction ls with
    | nil => exact absurd he (List.not_mem_nil e)
    | cons l ls ih =>
      unfold processDetailLines at he
      rcases List.mem_append.mp he with he | he
      · exact processDetailLine_excl grp l e he
      · exact ih he

/-- Witness for C10 (amended) on a parsed value-mapped record. -/
theorem bits_evt_exclusive_after_parse_witness :
    (⟨"1", "Word", "1", "A", "A", "G", "", "", "\"B\"==0,0"⟩ : PointEntry).bits = "" ∨
    (⟨"1", "Word", "1", "A", "A", "G", "", "", "\"B\"==0,0"⟩ : PointEntry).evt = "" :=
  bits_evt_exclusive_after_parse "G\n1 Word A 0: B" _ (by decide)
